import Mathlib

/-!
Formal model of the PPOkemon on-policy training core: the GAE advantage
estimator (`src/torch/utils/advantage_estimator.cpp`), the rollout buffer
(`src/torch/algorithms/rollout_buffer.cpp`) and the PPO trainer
(`src/torch/algorithms/ppo.cpp`).  Float tensors are modelled as lists of
rationals (the claims under study are about the exact arithmetic structure of
the recursions, not about rounding); the policy-loss, which applies `exp`,
is modelled over the reals.  Stateful buffer code is modelled as explicit
state passing, with `Option` for paths that throw `std::runtime_error`.
-/

namespace PPOkemon

/-- Result of one environment `Step` call: the reward and the done flag
(`AbstractEnv::StepResultRaw`, projected to the fields the trainer stores). -/
structure StepResult where
  reward : ℚ
  done : Bool
  deriving DecidableEq

namespace AdvantageEstimator

/-- Backward GAE pass of `AdvantageEstimator::ComputeGAE` over one
environment's chronological `rewards`/`values`/`dones` sequences.  Returns the
advantage list together with the running `gae` accumulator as it stands after
processing the head element (0 for empty input, matching the initialisation
`float gae = 0.0f`).  `rs.isEmpty` mirrors the source's `t == seq_len - 1`
test (driven by the length of `rewards`), and `vs.headD 0` is `values[t+1]`. -/
def gaeAux (gamma lambda : ℚ) : List ℚ → List ℚ → List ℚ → List ℚ × ℚ
  | r :: rs, v :: vs, d :: ds =>
    let p := gaeAux gamma lambda rs vs ds
    let nextValue : ℚ := if rs.isEmpty then 0 else vs.headD 0
    let delta : ℚ := r + gamma * nextValue * (1 - d) - v
    let gae : ℚ := delta + gamma * lambda * (1 - d) * p.2
    (gae :: p.1, gae)
  | _, _, _ => ([], 0)

/-- `AdvantageEstimator::ComputeGAE(rewards, values, dones, gamma, lambda)`:
the advantages produced by the backward recursion of the source. -/
def ComputeGAE (rewards values dones : List ℚ) (gamma lambda : ℚ) : List ℚ :=
  (gaeAux gamma lambda rewards values dones).1

/-- Spec-side definition (from the spec's words, for the refinement claim):
`next_value = 0 if t == T-1 else values[t+1]`. -/
def specNextValue (values : List ℚ) (t T : ℕ) : ℚ :=
  if t = T - 1 then 0 else values.getD (t + 1) 0

/-- Spec-side definition:
`delta = rewards[t] + gamma * next_value * (1 - dones[t]) - values[t]`. -/
def specDelta (rewards values dones : List ℚ) (gamma : ℚ) (t T : ℕ) : ℚ :=
  rewards.getD t 0 + gamma * specNextValue values t T * (1 - dones.getD t 0) -
    values.getD t 0

/-- Spec-side definition: the value of the `gae` accumulator after the spec's
backward loop (`gae = delta + gamma * lambda * (1 - dones[t]) * gae`, with
`gae` initialised to 0 before the loop) has processed the last `k` indices,
i.e. indices `T-1` down to `T-k`. -/
def specGaeFromEnd (rewards values dones : List ℚ) (gamma lambda : ℚ) (T : ℕ) :
    ℕ → ℚ
  | 0 => 0
  | k + 1 =>
    specDelta rewards values dones gamma (T - (k + 1)) T +
      gamma * lambda * (1 - dones.getD (T - (k + 1)) 0) *
        specGaeFromEnd rewards values dones gamma lambda T k

/-- Spec-side definition: `advantages[t] = gae` right after the loop iteration
for index `t`, i.e. after the last `T - t` indices have been processed. -/
def specAdvantage (rewards values dones : List ℚ) (gamma lambda : ℚ)
    (T t : ℕ) : ℚ :=
  specGaeFromEnd rewards values dones gamma lambda T (T - t)

end AdvantageEstimator

namespace RolloutBuffer

/-- Fill-state of the rollout buffer: `step_` (number of completed `Add`
calls since the last `Reset`) and the `finalized_` flag. -/
structure State where
  step : ℕ
  finalized : Bool
  deriving DecidableEq

/-- `RolloutBuffer::Add`: throws (`none`) when `step_ >= config_.buffer_size`
("RolloutBuffer is full!"), otherwise increments `step_`. -/
def Add (bufferSize : ℕ) (s : State) : Option State :=
  if bufferSize ≤ s.step then none else some ⟨s.step + 1, s.finalized⟩

/-- `RolloutBuffer::FinishRollout`: throws (`none`) only when `step_ == 0`
("Cannot finalize empty rollout buffer!"); otherwise computes GAE and sets
`finalized_ = true`.  No other precondition is checked. -/
def FinishRollout (s : State) : Option State :=
  if s.step = 0 then none else some ⟨s.step, true⟩

/-- `RolloutBuffer::Reset`: clears the fill pointer and the finalized flag. -/
def Reset (_ : State) : State := ⟨0, false⟩

/-- Environment column `env_idx` of a `[step, num_envs]` buffer tensor, as
extracted by the fill loop `rewards_flat[t * num_envs + env_idx]`. -/
def column (j : ℕ) (m : List (List ℚ)) : List ℚ :=
  m.map fun row => row.getD j 0

/-- `RolloutBuffer::ComputeGAE(last_values)`: for each environment column,
builds `env_values` of length `step_ + 1` with `env_values[step_] =
last_values[env_idx]`, then calls the advantage estimator on
`env_values.slice(0, 0, step_)` (the `.take step` below), and stores
`env_returns = env_advantages + env_values.slice(0, 0, step_)`.  Returns the
(advantages, returns) matrices in `[step, num_envs]` layout. -/
def ComputeGAE (rewards values dones : List (List ℚ)) (lastValues : List ℚ)
    (gamma lambda : ℚ) (numEnvs : ℕ) : List (List ℚ) × List (List ℚ) :=
  let step := rewards.length
  let envValuesFull := fun j => column j values ++ [lastValues.getD j 0]
  let envAdv := fun j =>
    AdvantageEstimator.ComputeGAE (column j rewards)
      ((envValuesFull j).take step) (column j dones) gamma lambda
  let envRet := fun j =>
    List.zipWith (· + ·) (envAdv j) ((envValuesFull j).take step)
  ((List.range step).map fun t => (List.range numEnvs).map fun j => (envAdv j).getD t 0,
   (List.range step).map fun t => (List.range numEnvs).map fun j => (envRet j).getD t 0)

/-- Fuel-indexed chunking loop of `RolloutBuffer::GetBatches`: slices the
index vector into consecutive chunks `indices[start, min(start+batch_size,
total))` for `start = 0, batch_size, 2*batch_size, ...`.  The fuel (taken as
the list length at the top-level call) only serves structural recursion; it
never runs out when `batchSize ≥ 1`. -/
def chunksGo (batchSize : ℕ) : ℕ → List ℕ → List (List ℕ)
  | 0, _ => []
  | _ + 1, [] => []
  | fuel + 1, x :: xs =>
    (x :: xs).take batchSize :: chunksGo batchSize fuel ((x :: xs).drop batchSize)

/-- The list of index mini-batches `GetBatches` builds from an index vector. -/
def minibatchChunks (batchSize : ℕ) (indices : List ℕ) : List (List ℕ) :=
  chunksGo batchSize indices.length indices

/-- `RolloutBuffer::GetBatches(batch_size, shuffle)`, projected to the sample
indices each mini-batch selects: throws (`none`) unless `finalized_`;
otherwise uses either a uniformly shuffled index vector (modelled by the
`perm` argument, since `std::shuffle` draws from a random device) or
`iota(0, total_samples)` with `total_samples = step_ * num_envs`, and chunks
it. -/
def GetBatches (s : State) (numEnvs batchSize : ℕ) (shuffle : Bool)
    (perm : List ℕ) : Option (List (List ℕ)) :=
  if s.finalized = false then none
  else
    let total := s.step * numEnvs
    let indices := if shuffle then perm else List.range total
    some (minibatchChunks batchSize indices)

end RolloutBuffer

namespace PPO

/-- One transition as stored into the rollout buffer for one environment:
its reward, its done flag, and whether it came from an actual `Step` call
(`fromStep = true`) or from the fallback branch for an already-done
environment (which fabricates reward 0 and done false). -/
structure StoredTransition where
  reward : ℚ
  done : Bool
  fromStep : Bool
  deriving DecidableEq

/-- `PPO::InitializeEnvironments`: resets every environment and pushes
`environment_dones_.push_back(false)` for each. -/
def InitializeEnvironments (numEnvs : ℕ) : List Bool :=
  List.replicate numEnvs false

/-- One per-environment iteration of the collection loop in
`PPO::CollectExperience`, acting on that environment's `environment_dones_`
entry.  If the flag is set, the fallback branch pushes reward `0.0f` and done
`false` without stepping.  Otherwise the environment is stepped and its
reward/done stored; on `step_result.done` the flag is set to `true`, the
environment is reset, and the flag is set back to `false` within the same
iteration. -/
def collectEnvIter (envDone : Bool) (res : StepResult) : Bool × StoredTransition :=
  if envDone then
    (envDone, ⟨0, false, false⟩)
  else
    (if res.done then false else envDone, ⟨res.reward, res.done, true⟩)

/-- One collection step over all environments: each `environment_dones_`
entry is read and written exactly once, by its own iteration. -/
def collectStep (flags : List Bool) (results : List StepResult) :
    List Bool × List StoredTransition :=
  let pairs := List.zipWith collectEnvIter flags results
  (pairs.map Prod.fst, pairs.map Prod.snd)

/-- `PPO::CollectExperience`, projected to the `environment_dones_` vector
and the reward/done data stored into the rollout buffer: folds `collectStep`
over the per-step environment results (the outcome of each `Step` call is an
input, since environments are external collaborators). -/
def CollectExperience (flags : List Bool) (stepResults : List (List StepResult)) :
    List Bool × List (List StoredTransition) :=
  match stepResults with
  | [] => (flags, [])
  | res :: rest =>
    let p := collectStep flags res
    let q := CollectExperience p.1 rest
    (q.1, p.2 :: q.2)

/-- Mini-batch schedule of `PPO::UpdatePolicy`: `GetBatches(mini_batch_size,
true)` is called once, before the epoch loop, consuming one shuffled index
vector (`shuffles 0`); every epoch then iterates over that same `batches`
vector.  `shuffles e` is the permutation the RNG would produce on the
`e`-th `GetBatches` call. -/
def updatePolicyEpochBatches (ppoEpochs batchSize : ℕ) (shuffles : ℕ → List ℕ) :
    List (List (List ℕ)) :=
  let batches := RolloutBuffer.minibatchChunks batchSize (shuffles 0)
  (List.range ppoEpochs).map fun _ => batches

/-- Spec-side definition (from the spec's words, for the refinement claim):
"repeat for `ppo_epochs` epochs: request shuffled minibatches from the
buffer" — epoch `e` uses a fresh shuffle `shuffles e`. -/
def freshEpochBatches (ppoEpochs batchSize : ℕ) (shuffles : ℕ → List ℕ) :
    List (List (List ℕ)) :=
  (List.range ppoEpochs).map fun e =>
    RolloutBuffer.minibatchChunks batchSize (shuffles e)

/-- Concrete two-element shuffle stream used to instantiate the mini-batch
schedule: the RNG would yield [0, 1] on the first `GetBatches` call and
[1, 0] on the second. -/
def twoShuffles : ℕ → List ℕ := fun e => if e = 0 then [0, 1] else [1, 0]

/-- `torch::clamp(x, lo, hi)`. -/
def clamp (x lo hi : ℚ) : ℚ := min (max x lo) hi

/-- `torch::mean` of a flat tensor. -/
def listMean (l : List ℚ) : ℚ := l.sum / l.length

/-- `PPO::ComputeClippedValueLoss(values, old_values, returns)`:
`value_clipped = old_values + clamp(values - old_values, -εv, εv)` and
`0.5 * mean(max((values - returns)^2, (value_clipped - returns)^2))`. -/
def ComputeClippedValueLoss (values oldValues returns : List ℚ)
    (valueClipRatio : ℚ) : ℚ :=
  let valueClipped := List.zipWith
    (fun v ov => ov + clamp (v - ov) (-valueClipRatio) valueClipRatio)
    values oldValues
  let lossUnclipped := List.zipWith (fun v r => (v - r) ^ 2) values returns
  let lossClipped := List.zipWith (fun vc r => (vc - r) ^ 2) valueClipped returns
  (1 / 2) * listMean (List.zipWith max lossUnclipped lossClipped)

/-- `torch::mse_loss` with its default mean reduction. -/
def mseLoss (values returns : List ℚ) : ℚ :=
  listMean (List.zipWith (fun v r => (v - r) ^ 2) values returns)

/-- `PPO::ComputeValueLoss`: clipped value loss when
`config_.value_clip_ratio > 0`, otherwise plain MSE against the returns. -/
def ComputeValueLoss (values oldValues returns : List ℚ)
    (valueClipRatio : ℚ) : ℚ :=
  if 0 < valueClipRatio then
    ComputeClippedValueLoss values oldValues returns valueClipRatio
  else mseLoss values returns

/-- Spec-side definition (from the spec's words): `0.5 * mean(max((value -
return)^2, (clip(value, old_value - εv, old_value + εv) - return)^2))`. -/
def specClippedValueLoss (values oldValues returns : List ℚ) (epsV : ℚ) : ℚ :=
  (1 / 2) * listMean (List.zipWith max
    (List.zipWith (fun v r => (v - r) ^ 2) values returns)
    (List.zipWith (fun vc r => (vc - r) ^ 2)
      (List.zipWith (fun v ov => clamp v (ov - epsV) (ov + epsV)) values oldValues)
      returns))

/-- `torch::clamp` over the reals (for the policy loss, which uses `exp`). -/
noncomputable def clampR (x lo hi : ℝ) : ℝ := min (max x lo) hi

/-- `torch::mean` over the reals. -/
noncomputable def listMeanR (l : List ℝ) : ℝ := l.sum / l.length

/-- `PPO::ComputeClippedPolicyLoss(log_probs, old_log_probs, advantages)`:
`ratio = exp(log_probs - old_log_probs)`, `surr1 = ratio * advantages`,
`surr2 = clamp(ratio, 1 - ε, 1 + ε) * advantages`, result
`-mean(min(surr1, surr2))`. -/
noncomputable def ComputeClippedPolicyLoss
    (logProbs oldLogProbs advantages : List ℝ) (clipRatio : ℝ) : ℝ :=
  let ratio := List.zipWith (fun lp olp => Real.exp (lp - olp)) logProbs oldLogProbs
  let surr1 := List.zipWith (· * ·) ratio advantages
  let surr2 := List.zipWith
    (fun rt a => clampR rt (1 - clipRatio) (1 + clipRatio) * a) ratio advantages
  Neg.neg (listMeanR (List.zipWith min surr1 surr2))

/-- Spec-side definition (from the spec's words): the per-sample surrogate
`min(ratio * advantage, clip(ratio, 1 - ε, 1 + ε) * advantage)`. -/
noncomputable def specSurrogate (ratio advantage eps : ℝ) : ℝ :=
  min (ratio * advantage) (clampR ratio (1 - eps) (1 + eps) * advantage)

/-- Spec-side definition (from the spec's words): the clipped surrogate
policy loss `-mean(min(ratio * advantage, clip(ratio, 1-ε, 1+ε) *
advantage))` with `ratio = exp(new_log_prob - old_log_prob)`. -/
noncomputable def specPolicyLoss (logProbs oldLogProbs advantages : List ℝ)
    (eps : ℝ) : ℝ :=
  Neg.neg (listMeanR (List.zipWith (fun rt a => specSurrogate rt a eps)
      (List.zipWith (fun lp olp => Real.exp (lp - olp)) logProbs oldLogProbs)
      advantages))

end PPO

/-! Helper lemmas about the GAE recursion. -/

lemma headD_eq_getD_zero (l : List ℚ) (x : ℚ) : l.headD x = l.getD 0 x := by
  cases l <;> rfl

lemma gaeAux_fst_length (gamma lambda : ℚ) :
    ∀ (r v d : List ℚ), v.length = r.length → d.length = r.length →
      ((AdvantageEstimator.gaeAux gamma lambda r v d).1).length = r.length := by
  intro r
  induction r with
  | nil => intro v d _ _; cases v <;> cases d <;> rfl
  | cons r₀ rs ih =>
    intro v d hv hd
    cases v with
    | nil => simp at hv
    | cons v₀ vs =>
      cases d with
      | nil => simp at hd
      | cons d₀ ds =>
        simp only [AdvantageEstimator.gaeAux, List.length_cons]
        rw [ih vs ds (by simpa using hv) (by simpa using hd)]

lemma gaeAux_snd_eq (gamma lambda : ℚ) (r v d : List ℚ) :
    (AdvantageEstimator.gaeAux gamma lambda r v d).2 =
      ((AdvantageEstimator.gaeAux gamma lambda r v d).1).headD 0 := by
  cases r <;> cases v <;> cases d <;> simp [AdvantageEstimator.gaeAux]

lemma specDelta_cons (r v d : ℚ) (rs vs ds : List ℚ) (gamma : ℚ) (t T : ℕ)
    (ht : t < T) :
    AdvantageEstimator.specDelta (r :: rs) (v :: vs) (d :: ds) gamma (t + 1) (T + 1) =
      AdvantageEstimator.specDelta rs vs ds gamma t T := by
  unfold AdvantageEstimator.specDelta AdvantageEstimator.specNextValue
  simp only [Nat.add_sub_cancel, List.getD_cons_succ]
  rcases eq_or_ne (t + 1) T with h | h
  · rw [if_pos h, if_pos (by omega)]
  · rw [if_neg h, if_neg (show ¬ t = T - 1 by omega)]

lemma specGaeFromEnd_cons (r v d : ℚ) (rs vs ds : List ℚ) (gamma lambda : ℚ)
    (T : ℕ) : ∀ k, k ≤ T →
    AdvantageEstimator.specGaeFromEnd (r :: rs) (v :: vs) (d :: ds) gamma lambda (T + 1) k =
      AdvantageEstimator.specGaeFromEnd rs vs ds gamma lambda T k := by
  intro k
  induction k with
  | zero => intro _; rfl
  | succ k ih =>
    intro hk
    have hTk : T + 1 - (k + 1) = (T - (k + 1)) + 1 := by omega
    unfold AdvantageEstimator.specGaeFromEnd
    rw [hTk, specDelta_cons r v d rs vs ds gamma (T - (k + 1)) T (by omega),
      List.getD_cons_succ, ih (by omega)]

lemma gae_getD_spec (gamma lambda : ℚ) :
    ∀ (r v d : List ℚ), v.length = r.length → d.length = r.length →
      ∀ t, t < r.length →
        (AdvantageEstimator.ComputeGAE r v d gamma lambda).getD t 0 =
          AdvantageEstimator.specGaeFromEnd r v d gamma lambda r.length (r.length - t) := by
  intro r
  induction r with
  | nil => intro v d _ _ t ht; simp at ht
  | cons r₀ rs ih =>
    intro v d hv hd t ht
    obtain ⟨v₀, vs, rfl⟩ : ∃ a l, v = a :: l := by
      cases v with
      | nil => simp at hv
      | cons a l => exact ⟨a, l, rfl⟩
    obtain ⟨d₀, ds, rfl⟩ : ∃ a l, d = a :: l := by
      cases d with
      | nil => simp at hd
      | cons a l => exact ⟨a, l, rfl⟩
    have hv' : vs.length = rs.length := by simpa using hv
    have hd' : ds.length = rs.length := by simpa using hd
    have hsnd : (AdvantageEstimator.gaeAux gamma lambda rs vs ds).2 =
        AdvantageEstimator.specGaeFromEnd rs vs ds gamma lambda rs.length rs.length := by
      cases rs with
      | nil =>
        have hvs : vs = [] := List.eq_nil_of_length_eq_zero (by simpa using hv')
        have hds : ds = [] := List.eq_nil_of_length_eq_zero (by simpa using hd')
        subst hvs; subst hds; rfl
      | cons r₁ rs' =>
        rw [gaeAux_snd_eq, headD_eq_getD_zero]
        have h0 := ih vs ds hv' hd' 0 (by simp)
        simpa [AdvantageEstimator.ComputeGAE] using h0
    cases t with
    | zero =>
      simp only [AdvantageEstimator.ComputeGAE, AdvantageEstimator.gaeAux,
        List.getD_cons_zero, List.length_cons, Nat.sub_zero]
      unfold AdvantageEstimator.specGaeFromEnd
      rw [specGaeFromEnd_cons r₀ v₀ d₀ rs vs ds gamma lambda rs.length rs.length le_rfl,
        ← hsnd]
      unfold AdvantageEstimator.specDelta AdvantageEstimator.specNextValue
      simp only [Nat.add_sub_cancel, Nat.sub_self, List.getD_cons_zero]
      cases rs with
      | nil => simp
      | cons r₁ rs' =>
        simp only [List.isEmpty_cons, List.length_cons, List.getD_cons_succ,
          Bool.false_eq_true, if_false]
        rw [if_neg (show ¬(0 = rs'.length + 1) by omega), headD_eq_getD_zero]
    | succ t' =>
      have ht' : t' < rs.length := by simpa using ht
      have hL : rs.length + 1 - (t' + 1) = rs.length - t' := by omega
      simp only [AdvantageEstimator.ComputeGAE, AdvantageEstimator.gaeAux,
        List.getD_cons_succ, List.length_cons, hL]
      rw [specGaeFromEnd_cons r₀ v₀ d₀ rs vs ds gamma lambda rs.length (rs.length - t')
        (by omega)]
      exact ih vs ds hv' hd' t' ht'

/-- C4: for every single-environment sequence rewards[T], values[T], dones[T] and
parameters gamma, lambda, `AdvantageEstimator::ComputeGAE` returns exactly the
advantages defined by the spec's backward recursion (next_value = 0 at t = T-1,
else values[t+1]; delta; gae with the (1-done) masks; advantages[t] = gae).
The model is purely functional, so the inputs are unchanged by construction. -/
theorem computeGAE_spec_recursion (rewards values dones : List ℚ)
    (gamma lambda : ℚ) (hv : values.length = rewards.length)
    (hd : dones.length = rewards.length) :
    (AdvantageEstimator.ComputeGAE rewards values dones gamma lambda).length =
        rewards.length ∧
      ∀ t, t < rewards.length →
        (AdvantageEstimator.ComputeGAE rewards values dones gamma lambda).getD t 0 =
          AdvantageEstimator.specAdvantage rewards values dones gamma lambda
            rewards.length t := by
  refine ⟨gaeAux_fst_length gamma lambda rewards values dones hv hd, ?_⟩
  intro t ht
  unfold AdvantageEstimator.specAdvantage
  exact gae_getD_spec gamma lambda rewards values dones hv hd t ht

/-- Witness for C4 at a concrete input. -/
theorem computeGAE_spec_recursion_witness :
    (AdvantageEstimator.ComputeGAE [1, 2] [3, 4] [0, 1] (1/2) (1/3)).length =
        ([(1:ℚ), 2]).length ∧
      (AdvantageEstimator.ComputeGAE [1, 2] [3, 4] [0, 1] (1/2) (1/3)).getD 1 0 =
        AdvantageEstimator.specAdvantage [1, 2] [3, 4] [0, 1] (1/2) (1/3)
          ([(1:ℚ), 2]).length 1 :=
  ⟨(computeGAE_spec_recursion [1, 2] [3, 4] [0, 1] (1/2) (1/3) (by decide) (by decide)).1,
    (computeGAE_spec_recursion [1, 2] [3, 4] [0, 1] (1/2) (1/3) (by decide)
      (by decide)).2 1 (by decide)⟩

/-- C9: for every single-environment sequence with no intermediate done flag,
if lambda = 1 and gamma = 1 then the advantage at each t equals the
Monte-Carlo excess return `sum(rewards[t:]) - values[t]`. -/
theorem computeGAE_monte_carlo :
    ∀ (r v d : List ℚ), v.length = r.length → d.length = r.length →
      (∀ i, i + 1 < r.length → d.getD i 0 = 0) →
      ∀ t, t < r.length →
        (AdvantageEstimator.ComputeGAE r v d 1 1).getD t 0 =
          (r.drop t).sum - v.getD t 0 := by
  intro r
  induction r with
  | nil => intro v d _ _ _ t ht; simp at ht
  | cons r₀ rs ih =>
    intro v d hv hd hdones t ht
    obtain ⟨v₀, vs, rfl⟩ : ∃ a l, v = a :: l := by
      cases v with
      | nil => simp at hv
      | cons a l => exact ⟨a, l, rfl⟩
    obtain ⟨d₀, ds, rfl⟩ : ∃ a l, d = a :: l := by
      cases d with
      | nil => simp at hd
      | cons a l => exact ⟨a, l, rfl⟩
    have hv' : vs.length = rs.length := by simpa using hv
    have hd' : ds.length = rs.length := by simpa using hd
    have hdones' : ∀ i, i + 1 < rs.length → ds.getD i 0 = 0 := by
      intro i hi
      have := hdones (i + 1) (by simpa using hi)
      simpa using this
    cases t with
    | succ t' =>
      simp only [AdvantageEstimator.ComputeGAE, AdvantageEstimator.gaeAux,
        List.getD_cons_succ, List.drop_succ_cons]
      exact ih vs ds hv' hd' hdones' t' (by simpa using ht)
    | zero =>
      cases rs with
      | nil =>
        have hvs : vs = [] := List.eq_nil_of_length_eq_zero (by simpa using hv')
        have hds : ds = [] := List.eq_nil_of_length_eq_zero (by simpa using hd')
        subst hvs; subst hds
        simp [AdvantageEstimator.ComputeGAE, AdvantageEstimator.gaeAux]
      | cons r₁ rs' =>
        have hd₀ : d₀ = 0 := by
          have := hdones 0 (by simp)
          simpa using this
        have hsnd := ih vs ds hv' hd' hdones' 0 (by simp)
        simp only [AdvantageEstimator.ComputeGAE, List.drop_zero] at hsnd
        simp only [AdvantageEstimator.ComputeGAE, AdvantageEstimator.gaeAux,
          List.getD_cons_zero, List.isEmpty_cons, Bool.false_eq_true, if_false,
          List.drop_zero, List.sum_cons]
        rw [gaeAux_snd_eq]
        simp only [headD_eq_getD_zero]
        rw [hsnd, hd₀, List.sum_cons]
        ring

/-- Witness for C9 at a concrete input. -/
theorem computeGAE_monte_carlo_witness :
    (AdvantageEstimator.ComputeGAE [1, 2] [5, 7] [0, 0] 1 1).getD 0 0 =
      (([(1:ℚ), 2]).drop 0).sum - ([(5:ℚ), 7]).getD 0 0 :=
  computeGAE_monte_carlo [1, 2] [5, 7] [0, 0] (by decide) (by decide)
    (by
      intro i hi
      simp only [List.length_cons, List.length_nil] at hi
      have h0 : i = 0 := by omega
      subst h0
      rfl)
    0 (by decide)

/-! Helper lemmas for the done-flag masking property (C8). -/

lemma headD_take (l : List ℚ) (n : ℕ) (x : ℚ) :
    (l.take (n + 1)).headD x = l.headD x := by
  cases l <;> rfl

lemma take_succ_ne_nil {l : List ℚ} (h : l ≠ []) (n : ℕ) : l.take (n + 1) ≠ [] := by
  cases l with
  | nil => exact absurd rfl h
  | cons a l' => simp

lemma getD_eq_of_take_eq {l₁ l₂ : List ℚ} {n t : ℕ} (h : l₁.take n = l₂.take n)
    (ht : t < n) (x : ℚ) : l₁.getD t x = l₂.getD t x := by
  have e₁ : (l₁.take n)[t]? = l₁[t]? := by rw [List.getElem?_take]; exact if_pos ht
  have e₂ : (l₂.take n)[t]? = l₂[t]? := by rw [List.getElem?_take]; exact if_pos ht
  rw [List.getD_eq_getElem?_getD, List.getD_eq_getElem?_getD, ← e₁, ← e₂, h]

lemma gae_done_getD (gamma lambda : ℚ) :
    ∀ (k : ℕ) (r v d : List ℚ), v.length = r.length → d.length = r.length →
      k < r.length → d.getD k 0 = 1 →
      (AdvantageEstimator.ComputeGAE r v d gamma lambda).getD k 0 =
        r.getD k 0 - v.getD k 0 := by
  intro k
  induction k with
  | zero =>
    intro r v d hv hd hk hd1
    obtain ⟨r₀, rs, rfl⟩ : ∃ a l, r = a :: l := by
      cases r with
      | nil => simp at hk
      | cons a l => exact ⟨a, l, rfl⟩
    obtain ⟨v₀, vs, rfl⟩ : ∃ a l, v = a :: l := by
      cases v with
      | nil => simp at hv
      | cons a l => exact ⟨a, l, rfl⟩
    obtain ⟨d₀, ds, rfl⟩ : ∃ a l, d = a :: l := by
      cases d with
      | nil => simp at hd
      | cons a l => exact ⟨a, l, rfl⟩
    have hd₀ : d₀ = 1 := by simpa using hd1
    simp only [AdvantageEstimator.ComputeGAE, AdvantageEstimator.gaeAux,
      List.getD_cons_zero, hd₀]
    ring
  | succ k ih =>
    intro r v d hv hd hk hd1
    obtain ⟨r₀, rs, rfl⟩ : ∃ a l, r = a :: l := by
      cases r with
      | nil => simp at hk
      | cons a l => exact ⟨a, l, rfl⟩
    obtain ⟨v₀, vs, rfl⟩ : ∃ a l, v = a :: l := by
      cases v with
      | nil => simp at hv
      | cons a l => exact ⟨a, l, rfl⟩
    obtain ⟨d₀, ds, rfl⟩ : ∃ a l, d = a :: l := by
      cases d with
      | nil => simp at hd
      | cons a l => exact ⟨a, l, rfl⟩
    simp only [AdvantageEstimator.ComputeGAE, AdvantageEstimator.gaeAux,
      List.getD_cons_succ]
    exact ih rs vs ds (by simpa using hv) (by simpa using hd) (by simpa using hk)
      (by simpa using hd1)

lemma gae_take (gamma lambda : ℚ) :
    ∀ (k : ℕ) (r v d : List ℚ), v.length = r.length → d.length = r.length →
      k < r.length → d.getD k 0 = 1 →
      (AdvantageEstimator.ComputeGAE r v d gamma lambda).take (k + 1) =
        AdvantageEstimator.ComputeGAE (r.take (k + 1)) (v.take (k + 1))
          (d.take (k + 1)) gamma lambda := by
  intro k
  induction k with
  | zero =>
    intro r v d hv hd hk hd1
    obtain ⟨r₀, rs, rfl⟩ : ∃ a l, r = a :: l := by
      cases r with
      | nil => simp at hk
      | cons a l => exact ⟨a, l, rfl⟩
    obtain ⟨v₀, vs, rfl⟩ : ∃ a l, v = a :: l := by
      cases v with
      | nil => simp at hv
      | cons a l => exact ⟨a, l, rfl⟩
    obtain ⟨d₀, ds, rfl⟩ : ∃ a l, d = a :: l := by
      cases d with
      | nil => simp at hd
      | cons a l => exact ⟨a, l, rfl⟩
    have hd₀ : d₀ = 1 := by simpa using hd1
    simp only [AdvantageEstimator.ComputeGAE, AdvantageEstimator.gaeAux,
      List.take_succ_cons, List.take_zero, hd₀]
    norm_num

  | succ k ih =>
    intro r v d hv hd hk hd1
    obtain ⟨r₀, rs, rfl⟩ : ∃ a l, r = a :: l := by
      cases r with
      | nil => simp at hk
      | cons a l => exact ⟨a, l, rfl⟩
    obtain ⟨v₀, vs, rfl⟩ : ∃ a l, v = a :: l := by
      cases v with
      | nil => simp at hv
      | cons a l => exact ⟨a, l, rfl⟩
    obtain ⟨d₀, ds, rfl⟩ : ∃ a l, d = a :: l := by
      cases d with
      | nil => simp at hd
      | cons a l => exact ⟨a, l, rfl⟩
    have hv' : vs.length = rs.length := by simpa using hv
    have hd' : ds.length = rs.length := by simpa using hd
    have hk' : k < rs.length := by simpa using hk
    have hd1' : ds.getD k 0 = 1 := by simpa using hd1
    have hrs : rs ≠ [] := by
      intro h; rw [h] at hk'; simp at hk'
    have htail := ih rs vs ds hv' hd' hk' hd1'
    have hrest : (AdvantageEstimator.gaeAux gamma lambda rs vs ds).1 ≠ [] := by
      have hlen := gaeAux_fst_length gamma lambda rs vs ds hv' hd'
      intro h; rw [h] at hlen
      exact hrs (List.eq_nil_of_length_eq_zero hlen.symm)
    have hrsE : rs.isEmpty = false := by
      cases rs with
      | nil => exact absurd rfl hrs
      | cons a l => rfl
    have hrsTakeE : (rs.take (k + 1)).isEmpty = false := by
      cases rs with
      | nil => exact absurd rfl hrs
      | cons a l => rfl
    have hsnd : (AdvantageEstimator.gaeAux gamma lambda (rs.take (k + 1))
        (vs.take (k + 1)) (ds.take (k + 1))).2 =
        (AdvantageEstimator.gaeAux gamma lambda rs vs ds).2 := by
      rw [gaeAux_snd_eq, gaeAux_snd_eq]
      have h1 : (AdvantageEstimator.gaeAux gamma lambda (rs.take (k + 1))
          (vs.take (k + 1)) (ds.take (k + 1))).1 =
          ((AdvantageEstimator.gaeAux gamma lambda rs vs ds).1).take (k + 1) := by
        simpa only [AdvantageEstimator.ComputeGAE] using htail.symm
      rw [h1, headD_take]
    simp only [AdvantageEstimator.ComputeGAE, AdvantageEstimator.gaeAux,
      List.take_succ_cons, hrsE, hrsTakeE, Bool.false_eq_true, if_false,
      headD_take, hsnd]
    refine congrArg₂ _ rfl ?_
    simpa only [AdvantageEstimator.ComputeGAE] using htail

/-- C8 (amended): with a done flag at index k, the advantage at k equals
rewards[k] - values[k], and the advantages at every index t ≤ k (k-1
included) are unchanged by any perturbation of values[k+1:], since the
(1 - done) mask cuts both the bootstrap and the eligibility trace at k. -/
theorem gae_masking_amended (r v₁ v₂ d : List ℚ) (gamma lambda : ℚ) (k : ℕ)
    (hv₁ : v₁.length = r.length) (hv₂ : v₂.length = r.length)
    (hd : d.length = r.length) (hk : k < r.length) (hdk : d.getD k 0 = 1)
    (hagree : v₁.take (k + 1) = v₂.take (k + 1)) :
    (AdvantageEstimator.ComputeGAE r v₁ d gamma lambda).getD k 0 =
        r.getD k 0 - v₁.getD k 0 ∧
      ∀ t, t ≤ k →
        (AdvantageEstimator.ComputeGAE r v₁ d gamma lambda).getD t 0 =
          (AdvantageEstimator.ComputeGAE r v₂ d gamma lambda).getD t 0 := by
  refine ⟨gae_done_getD gamma lambda k r v₁ d hv₁ hd hk hdk, ?_⟩
  intro t htk
  have h₁ := gae_take gamma lambda k r v₁ d hv₁ hd hk hdk
  have h₂ := gae_take gamma lambda k r v₂ d hv₂ hd hk hdk
  have htake : (AdvantageEstimator.ComputeGAE r v₁ d gamma lambda).take (k + 1) =
      (AdvantageEstimator.ComputeGAE r v₂ d gamma lambda).take (k + 1) := by
    rw [h₁, h₂, hagree]
  exact getD_eq_of_take_eq htake (by omega) 0

/-- Witness for C8 (amended) at a concrete input. -/
theorem gae_masking_amended_witness :
    (AdvantageEstimator.ComputeGAE [0, 0, 0] [1, 2, 0] [0, 1, 0] 1 1).getD 1 0 =
        ([(0:ℚ), 0, 0]).getD 1 0 - ([(1:ℚ), 2, 0]).getD 1 0 ∧
      (AdvantageEstimator.ComputeGAE [0, 0, 0] [1, 2, 0] [0, 1, 0] 1 1).getD 0 0 =
        (AdvantageEstimator.ComputeGAE [0, 0, 0] [1, 2, 9] [0, 1, 0] 1 1).getD 0 0 :=
  ⟨(gae_masking_amended [0, 0, 0] [1, 2, 0] [1, 2, 9] [0, 1, 0] 1 1 1 (by decide)
      (by decide) (by decide) (by decide) (by decide) (by decide)).1,
    (gae_masking_amended [0, 0, 0] [1, 2, 0] [1, 2, 9] [0, 1, 0] 1 1 1 (by decide)
      (by decide) (by decide) (by decide) (by decide) (by decide)).2 0 (by decide)⟩

/-- Counterexample for C8 as stated: with a done flag at k = 1, perturbing
values[k+1] (the value lists agree up to index k and differ exactly at k+1)
leaves the advantage at k-1 = 0 unchanged, contradicting the claim that it
"does change". -/
theorem gae_masking_counterexample :
    ([(0:ℚ), 1, 0]).getD 1 0 = 1 ∧
      ([(0:ℚ), 0, 0]).getD 2 0 ≠ ([(0:ℚ), 0, 1]).getD 2 0 ∧
      ([(0:ℚ), 0, 0]).take 2 = ([(0:ℚ), 0, 1]).take 2 ∧
      (AdvantageEstimator.ComputeGAE [0, 0, 0] [0, 0, 0] [0, 1, 0] 1 1).getD 0 0 =
        (AdvantageEstimator.ComputeGAE [0, 0, 0] [0, 0, 1] [0, 1, 0] 1 1).getD 0 0 := by
  refine ⟨by norm_num, by norm_num, by norm_num, ?_⟩
  norm_num [AdvantageEstimator.ComputeGAE, AdvantageEstimator.gaeAux]

/-! Rollout-buffer theorems. -/

/-- C1 (code evaluation): the bootstrap values handed to
`RolloutBuffer::FinishRollout`/`ComputeGAE` never influence the computed
advantages or returns — `env_values[step_] = last_values[env_idx]` is written
and then discarded by `env_values.slice(0, 0, step_)`, and the estimator uses
`next_value = 0` at `t = T-1` — so for the one-step rollout with reward 1,
value 0, done 0 and bootstrap 5, the advantage is 1 = rewards - values rather
than `1 + gamma * 5` as the claim requires. -/
theorem rolloutBuffer_bootstrap_unused :
    (∀ (rewards values dones : List (List ℚ)) (lv lv' : List ℚ)
        (gamma lambda : ℚ) (numEnvs : ℕ), values.length = rewards.length →
        RolloutBuffer.ComputeGAE rewards values dones lv gamma lambda numEnvs =
          RolloutBuffer.ComputeGAE rewards values dones lv' gamma lambda numEnvs) ∧
      (RolloutBuffer.ComputeGAE [[1]] [[0]] [[0]] [5] (99/100) (19/20) 1).1 =
        [[1]] := by
  constructor
  · intro rewards values dones lv lv' gamma lambda numEnvs h
    have hcol : ∀ (x : ℚ) (j : ℕ),
        (RolloutBuffer.column j values ++ [x]).take rewards.length =
          RolloutBuffer.column j values := by
      intro x j
      have hl : (RolloutBuffer.column j values).length = rewards.length := by
        simp [RolloutBuffer.column, h]
      rw [← hl, List.take_left]
    simp only [RolloutBuffer.ComputeGAE, hcol]
  · norm_num [RolloutBuffer.ComputeGAE, RolloutBuffer.column,
      AdvantageEstimator.ComputeGAE, AdvantageEstimator.gaeAux, List.range_succ]

/-- Witness for the C1 theorem at a concrete input: changing the bootstrap
from 5 to 7 leaves the output unchanged. -/
theorem rolloutBuffer_bootstrap_unused_witness :
    RolloutBuffer.ComputeGAE [[1]] [[0]] [[0]] [5] (99/100) (19/20) 1 =
      RolloutBuffer.ComputeGAE [[1]] [[0]] [[0]] [7] (99/100) (19/20) 1 :=
  rolloutBuffer_bootstrap_unused.1 [[1]] [[0]] [[0]] [5] [7] (99/100) (19/20) 1
    (by decide)

/-- Counterexample for C3 as stated: from a reset buffer with buffer_size 2,
one Add reaches step = 1 < 2, and FinishRollout on that under-filled state
silently finalizes (returns a state with finalized = true) instead of
raising. -/
theorem finishRollout_underfilled_counterexample :
    RolloutBuffer.Add 2 ⟨0, false⟩ = some ⟨1, false⟩ ∧ 1 < 2 ∧
      RolloutBuffer.FinishRollout ⟨1, false⟩ = some ⟨1, true⟩ := by decide

/-- C3 (amended): `RolloutBuffer::FinishRollout` raises only on the empty
buffer (zero Add calls since the last Reset); any state with at least one
Add — under-filled ones included — is silently finalized. -/
theorem finishRollout_amended (s : RolloutBuffer.State) :
    (RolloutBuffer.FinishRollout s = none ↔ s.step = 0) ∧
      (0 < s.step → RolloutBuffer.FinishRollout s = some ⟨s.step, true⟩) := by
  unfold RolloutBuffer.FinishRollout
  constructor
  · by_cases h : s.step = 0 <;> simp [h]
  · intro h
    rw [if_neg (by omega)]

/-- Witness for C3 (amended) at a concrete state. -/
theorem finishRollout_amended_witness :
    0 < 1 ∧ RolloutBuffer.FinishRollout ⟨1, false⟩ = some ⟨1, true⟩ :=
  ⟨by decide, (finishRollout_amended ⟨1, false⟩).2 (by decide)⟩

/-! Chunking lemmas for `GetBatches`. -/

lemma chunksGo_nil (bs fuel : ℕ) : RolloutBuffer.chunksGo bs fuel [] = [] := by
  cases fuel <;> rfl

lemma chunksGo_flatten (bs : ℕ) (hbs : 1 ≤ bs) :
    ∀ (fuel : ℕ) (l : List ℕ), l.length ≤ fuel →
      (RolloutBuffer.chunksGo bs fuel l).flatten = l := by
  intro fuel
  induction fuel with
  | zero =>
    intro l hl
    have hnil : l = [] := List.eq_nil_of_length_eq_zero (by omega)
    subst hnil; rfl
  | succ fuel ih =>
    intro l hl
    cases l with
    | nil => rfl
    | cons x xs =>
      show ((x :: xs).take bs ::
        RolloutBuffer.chunksGo bs fuel ((x :: xs).drop bs)).flatten = x :: xs
      rw [List.flatten_cons, ih ((x :: xs).drop bs)
        (by simp only [List.length_drop, List.length_cons] at hl ⊢; omega),
        List.take_append_drop]

lemma chunksGo_mem_length_le (bs : ℕ) :
    ∀ (fuel : ℕ) (l : List ℕ) (c : List ℕ),
      c ∈ RolloutBuffer.chunksGo bs fuel l → c.length ≤ bs := by
  intro fuel
  induction fuel with
  | zero => intro l c hc; simp [RolloutBuffer.chunksGo] at hc
  | succ fuel ih =>
    intro l c hc
    cases l with
    | nil => simp [chunksGo_nil] at hc
    | cons x xs =>
      rcases List.mem_cons.mp hc with h | h
      · subst h
        simp only [List.length_take]
        omega
      · exact ih ((x :: xs).drop bs) c h

lemma chunksGo_dropLast_length (bs : ℕ) (hbs : 1 ≤ bs) :
    ∀ (fuel : ℕ) (l : List ℕ), l.length ≤ fuel →
      ∀ c ∈ (RolloutBuffer.chunksGo bs fuel l).dropLast, c.length = bs := by
  intro fuel
  induction fuel with
  | zero =>
    intro l hl c hc
    have hnil : l = [] := List.eq_nil_of_length_eq_zero (by omega)
    subst hnil
    simp [RolloutBuffer.chunksGo] at hc
  | succ fuel ih =>
    intro l hl c hc
    cases l with
    | nil => simp [chunksGo_nil] at hc
    | cons x xs =>
      have hstep : RolloutBuffer.chunksGo bs (fuel + 1) (x :: xs) =
          (x :: xs).take bs ::
            RolloutBuffer.chunksGo bs fuel ((x :: xs).drop bs) := rfl
      rw [hstep] at hc
      rcases hrest : RolloutBuffer.chunksGo bs fuel ((x :: xs).drop bs) with _ | ⟨c₀, cr⟩
      · rw [hrest] at hc
        simp at hc
      · rw [hrest, List.dropLast_cons₂] at hc
        rcases List.mem_cons.mp hc with h | h
        · subst h
          have hne : (x :: xs).drop bs ≠ [] := by
            intro hnil
            rw [hnil, chunksGo_nil] at hrest
            exact (List.cons_ne_nil c₀ cr) hrest.symm
          have hlen : bs ≤ xs.length + 1 := by
            by_contra hlt
            push_neg at hlt
            exact hne (List.drop_eq_nil_of_le
              (by simp only [List.length_cons]; omega))
          simp only [List.length_take, List.length_cons]
          omega
        · have hmem : c ∈ (RolloutBuffer.chunksGo bs fuel ((x :: xs).drop bs)).dropLast := by
            rw [hrest]
            exact h
          exact ih ((x :: xs).drop bs)
            (by simp only [List.length_drop, List.length_cons] at hl ⊢; omega) c hmem

/-- C5: on a finalized rollout of `step` steps and `numEnvs` environments,
with 1 ≤ batch_size ≤ step * numEnvs and (for the shuffled path) any uniform
permutation of the index range, `GetBatches` returns mini-batches whose sizes
sum to step * numEnvs, each at most batch_size, all but the last exactly
batch_size (none dropped, none padded), and whose concatenated indices are a
permutation of {0, ..., step * numEnvs - 1}; `shuffle = false` uses the
identity `iota` indices, a permutation of the same range. -/
theorem getBatches_partition (step numEnvs batchSize : ℕ) (shuffle : Bool)
    (perm : List ℕ) (hperm : perm.Perm (List.range (step * numEnvs)))
    (hbs1 : 1 ≤ batchSize) (_hbs2 : batchSize ≤ step * numEnvs) :
    RolloutBuffer.GetBatches ⟨step, true⟩ numEnvs batchSize shuffle perm =
        some (RolloutBuffer.minibatchChunks batchSize
          (if shuffle then perm else List.range (step * numEnvs))) ∧
      ((RolloutBuffer.minibatchChunks batchSize
          (if shuffle then perm else List.range (step * numEnvs))).map
            List.length).sum = step * numEnvs ∧
      (∀ b ∈ RolloutBuffer.minibatchChunks batchSize
          (if shuffle then perm else List.range (step * numEnvs)),
            b.length ≤ batchSize) ∧
      (∀ b ∈ (RolloutBuffer.minibatchChunks batchSize
          (if shuffle then perm else List.range (step * numEnvs))).dropLast,
            b.length = batchSize) ∧
      (RolloutBuffer.minibatchChunks batchSize
          (if shuffle then perm else List.range (step * numEnvs))).flatten.Perm
        (List.range (step * numEnvs)) := by
  have hip : (if shuffle then perm else List.range (step * numEnvs)).Perm
      (List.range (step * numEnvs)) := by
    cases shuffle with
    | false => simp
    | true => simpa using hperm
  have hflat : (RolloutBuffer.minibatchChunks batchSize
      (if shuffle then perm else List.range (step * numEnvs))).flatten =
      (if shuffle then perm else List.range (step * numEnvs)) :=
    chunksGo_flatten batchSize hbs1 _ _ le_rfl
  refine ⟨rfl, ?_, ?_, ?_, ?_⟩
  · rw [← List.length_flatten, hflat, hip.length_eq, List.length_range]
  · intro b hb
    exact chunksGo_mem_length_le batchSize _ _ b hb
  · intro b hb
    exact chunksGo_dropLast_length batchSize hbs1 _ _ le_rfl b hb
  · rw [hflat]
    exact hip

/-- Witness for C5 at a concrete input (T = N = 2, batch_size = 3,
shuffled with the permutation [2, 0, 3, 1]). -/
theorem getBatches_partition_witness :
    RolloutBuffer.GetBatches ⟨2, true⟩ 2 3 true [2, 0, 3, 1] =
        some (RolloutBuffer.minibatchChunks 3 [2, 0, 3, 1]) ∧
      ((RolloutBuffer.minibatchChunks 3 [2, 0, 3, 1]).map List.length).sum =
          2 * 2 ∧
      (RolloutBuffer.minibatchChunks 3 [2, 0, 3, 1]).flatten.Perm
        (List.range (2 * 2)) :=
  ⟨(getBatches_partition 2 2 3 true [2, 0, 3, 1] (by decide) (by decide)
      (by decide)).1,
    (getBatches_partition 2 2 3 true [2, 0, 3, 1] (by decide) (by decide)
      (by decide)).2.1,
    (getBatches_partition 2 2 3 true [2, 0, 3, 1] (by decide) (by decide)
      (by decide)).2.2.2.2⟩

/-! PPO trainer theorems. -/

/-- Counterexample for C2 as stated: with two distinct shuffles available
from the RNG stream, `UpdatePolicy` (which calls `GetBatches` once, before
the epoch loop) uses the identical mini-batch partition in epoch 0 and epoch
1, and its schedule differs from the fresh-shuffle-per-epoch schedule the
claim describes. -/
theorem updatePolicy_reshuffle_counterexample :
    PPO.twoShuffles 0 ≠ PPO.twoShuffles 1 ∧
      (PPO.updatePolicyEpochBatches 2 1 PPO.twoShuffles).getD 1 [] =
        (PPO.updatePolicyEpochBatches 2 1 PPO.twoShuffles).getD 0 [] ∧
      PPO.updatePolicyEpochBatches 2 1 PPO.twoShuffles ≠
        PPO.freshEpochBatches 2 1 PPO.twoShuffles := by decide

/-- C2 (amended): `PPO::UpdatePolicy` requests shuffled mini-batches from the
buffer once per update, before the epoch loop; every epoch e < ppo_epochs
then reuses that same partition, built from the single shuffle drawn
(`shuffles 0`), rather than drawing a fresh shuffle per epoch. -/
theorem updatePolicy_single_shuffle (ppoEpochs batchSize : ℕ)
    (shuffles : ℕ → List ℕ) (e : ℕ) (he : e < ppoEpochs) :
    (PPO.updatePolicyEpochBatches ppoEpochs batchSize shuffles).getD e [] =
      RolloutBuffer.minibatchChunks batchSize (shuffles 0) := by
  unfold PPO.updatePolicyEpochBatches
  rw [List.getD_eq_getElem?_getD, List.getElem?_map, List.getElem?_range he]
  rfl

/-- Witness for C2 (amended): epoch 1 of 2 uses the partition of the first
(and only) shuffle. -/
theorem updatePolicy_single_shuffle_witness :
    1 < 2 ∧
      (PPO.updatePolicyEpochBatches 2 1 PPO.twoShuffles).getD 1 [] =
        RolloutBuffer.minibatchChunks 1 (PPO.twoShuffles 0) :=
  ⟨by decide, updatePolicy_single_shuffle 2 1 PPO.twoShuffles 1 (by decide)⟩

/-- Fusing two zipWiths over the same argument lists. -/
lemma zipWith_zipWith_same {α β γ δ ε : Type} (f : γ → δ → ε) (g : α → β → γ)
    (h : α → β → δ) : ∀ (l₁ : List α) (l₂ : List β),
      List.zipWith f (List.zipWith g l₁ l₂) (List.zipWith h l₁ l₂) =
        List.zipWith (fun a b => f (g a b) (h a b)) l₁ l₂ := by
  intro l₁
  induction l₁ with
  | nil => intro l₂; rfl
  | cons a l ih =>
    intro l₂
    cases l₂ with
    | nil => rfl
    | cons b m => simp [ih]

/-- C6: the policy loss of `PPO::ComputeClippedPolicyLoss` equals
`-mean(min(ratio * advantage, clip(ratio, 1-ε, 1+ε) * advantage))` with
`ratio = exp(new_log_prob - old_log_prob)`; and for a sample with ratio 2,
ε = 0.2 and advantage 1 the per-sample surrogate is the clipped branch 1.2
(not the raw branch 2), so the single-sample loss is -1.2. -/
theorem clippedPolicyLoss_spec :
    (∀ (lps olps advs : List ℝ) (eps : ℝ),
        PPO.ComputeClippedPolicyLoss lps olps advs eps =
          PPO.specPolicyLoss lps olps advs eps) ∧
      PPO.specSurrogate 2 1 (1 / 5) = 6 / 5 ∧
      PPO.specSurrogate 2 1 (1 / 5) ≠ 2 ∧
      PPO.ComputeClippedPolicyLoss [Real.log 2] [0] [1] (1 / 5) = -(6 / 5) := by
  refine ⟨?_, ?_, ?_, ?_⟩
  · intro lps olps advs eps
    simp only [PPO.ComputeClippedPolicyLoss, PPO.specPolicyLoss, PPO.specSurrogate]
    rw [zipWith_zipWith_same]
  · norm_num [PPO.specSurrogate, PPO.clampR, min_def, max_def]
  · norm_num [PPO.specSurrogate, PPO.clampR, min_def, max_def]
  · have hexp : Real.exp (Real.log 2) = 2 := Real.exp_log (by norm_num)
    simp only [PPO.ComputeClippedPolicyLoss, PPO.clampR, PPO.listMeanR, sub_zero,
      hexp, List.zipWith_cons_cons, List.zipWith_nil_right]
    norm_num [min_def, max_def]

/-- Rewriting the code's clipping form into the spec's clipping form. -/
lemma clamp_shift (x ov e : ℚ) :
    ov + PPO.clamp (x - ov) (-e) e = PPO.clamp x (ov - e) (ov + e) := by
  unfold PPO.clamp
  simp only [min_def, max_def]
  split_ifs <;> linarith

/-- C7: `PPO::ComputeValueLoss` equals, when value clipping is enabled
(value_clip_ratio > 0), `0.5 * mean(max((value - return)^2, (clip(value,
old_value - εv, old_value + εv) - return)^2))` — the code's form
`old_value + clamp(value - old_value, -εv, εv)` being equal to that clip —
and otherwise the plain mean-squared error against the returns. -/
theorem valueLoss_spec :
    ∀ (values oldValues returns : List ℚ) (epsV : ℚ),
      PPO.ComputeValueLoss values oldValues returns epsV =
        if 0 < epsV then PPO.specClippedValueLoss values oldValues returns epsV
        else PPO.listMean (List.zipWith (fun v r => (v - r) ^ 2) values returns) := by
  intro values oldValues returns epsV
  unfold PPO.ComputeValueLoss PPO.mseLoss
  split_ifs with h
  · unfold PPO.ComputeClippedValueLoss PPO.specClippedValueLoss
    have he : (fun v ov => ov + PPO.clamp (v - ov) (-epsV) epsV) =
        fun v ov => PPO.clamp v (ov - epsV) (ov + epsV) := by
      funext a b
      exact clamp_shift a b epsV
    rw [he]
  · rfl

/-! Collection-loop theorems. -/

lemma zipWith_collect_replicate_false :
    ∀ (results : List PPOkemon.StepResult) (n : ℕ), results.length = n →
      List.zipWith PPO.collectEnvIter (List.replicate n false) results =
        results.map fun res =>
          (false, (⟨res.reward, res.done, true⟩ : PPO.StoredTransition)) := by
  intro results
  induction results with
  | nil => intro n h; simp at h; subst h; rfl
  | cons res rest ih =>
    intro n h
    cases n with
    | zero => simp at h
    | succ m =>
      have hm : rest.length = m := by simpa using h
      simp only [List.replicate_succ, List.zipWith_cons_cons, List.map_cons,
        ih m hm, PPO.collectEnvIter, Bool.false_eq_true, if_false, ite_self]

lemma collectStep_replicate_false (results : List PPOkemon.StepResult) (n : ℕ)
    (h : results.length = n) :
    PPO.collectStep (List.replicate n false) results =
      (List.replicate n false,
       results.map fun res =>
         (⟨res.reward, res.done, true⟩ : PPO.StoredTransition)) := by
  unfold PPO.collectStep
  rw [zipWith_collect_replicate_false results n h]
  refine Prod.ext ?_ ?_
  · show (results.map _).map Prod.fst = List.replicate n false
    rw [List.map_map]
    show results.map (fun _ => false) = List.replicate n false
    rw [List.map_const', h]
  · show (results.map _).map Prod.snd = results.map _
    rw [List.map_map]
    rfl

lemma collectExperience_replicate :
    ∀ (stepResults : List (List PPOkemon.StepResult)) (n : ℕ),
      (∀ row ∈ stepResults, row.length = n) →
      PPO.CollectExperience (List.replicate n false) stepResults =
        (List.replicate n false,
         stepResults.map fun row => row.map fun res =>
           (⟨res.reward, res.done, true⟩ : PPO.StoredTransition)) := by
  intro stepResults
  induction stepResults with
  | nil => intro n _; rfl
  | cons row rest ih =>
    intro n h
    have hrow : row.length = n := h row (by simp)
    have hrest : ∀ r ∈ rest, r.length = n := fun r hr => h r (by simp [hr])
    simp only [PPO.CollectExperience, collectStep_replicate_false row n hrow,
      ih n hrest, List.map_cons]

/-- C10: after `PPO::InitializeEnvironments` every `environment_dones_` entry
is false, and the collection loop keeps it so: an environment whose Step
reports done is reset and unmarked within the same per-environment iteration,
so the fallback branch (which would fabricate reward 0 / done false for an
already-done environment) is never taken — every stored transition carries
the reward and done flag of an actual Step call (`fromStep = true`). -/
theorem collectExperience_dones_invariant (n : ℕ)
    (stepResults : List (List PPOkemon.StepResult))
    (h : ∀ row ∈ stepResults, row.length = n) :
    (∀ f ∈ PPO.InitializeEnvironments n, f = false) ∧
      PPO.CollectExperience (PPO.InitializeEnvironments n) stepResults =
        (PPO.InitializeEnvironments n,
         stepResults.map fun row => row.map fun res =>
           (⟨res.reward, res.done, true⟩ : PPO.StoredTransition)) :=
  ⟨fun _ hf => List.eq_of_mem_replicate hf,
    collectExperience_replicate stepResults n h⟩

/-- Witness for C10: one environment, one collection step whose Step reports
reward 3 and done true; the stored transition carries exactly that data and
comes from the Step call. -/
theorem collectExperience_dones_invariant_witness :
    PPO.CollectExperience (PPO.InitializeEnvironments 1) [[⟨3, true⟩]] =
      (PPO.InitializeEnvironments 1, [[⟨3, true, true⟩]]) :=
  (collectExperience_dones_invariant 1 [[⟨3, true⟩]]
    (by intro row hr; rw [List.mem_singleton] at hr; subst hr; rfl)).2

end PPOkemon
